import Mathlib

/-!
Verification of the bisect-rs library (src/lib.rs): bisection over sorted
slices with left and right insertion-point variants.

Modelling conventions.

The source consumes a slice only through two operations, reading its
length and indexing an element (the unchecked access in the loop body),
so a slice is embedded as a length together with a total indexing
function; only indices below the length are ever meaningful.

Index arithmetic in the source is on the usize type of word width w.
The two additions in the loop body are embedded as checked additions
against the largest usize value: a sum that exceeds it is the arithmetic
overflow that the Panics section of the source documentation and the
overflow test treat as a defined runtime failure, and every bisection
function therefore returns an Option, with none standing for that
failure and some i for a normal return of the index i.

The loops of bisect_right_by (source lines 129 to 140) and
bisect_left_by (source lines 246 to 256) are embedded as recursive
functions on the pair of bounds, decreasing in the measure high - low,
which is exactly the termination argument of the while loop.
-/

namespace BisectRs

/-- The largest value representable by usize on a platform whose word
width is w bits. -/
def usizeMax (w : Nat) : Nat := 2 ^ w - 1

/-- A Rust slice as the bisection code consumes it: a length and a
positional element access. The field get models the indexing that the
source performs through a.get_unchecked(mid); only indices below len
are ever meaningful, and the loop is proved to probe no others. -/
structure Slice (α : Type) where
  len : Nat
  get : Nat → α

/-- The slice holding the elements of a list, with d the out-of-range
default of the indexing function (the code never reads it in bounds). -/
def Slice.ofList {α : Type} (d : α) (l : List α) : Slice α :=
  ⟨l.length, fun i => l.getD i d⟩

/-- The pointwise image of a slice under f: the pre-projected key
sequence of the key-extraction wrappers. -/
def Slice.mapKeys {α β : Type} (f : α → β) (a : Slice α) : Slice β :=
  ⟨a.len, fun i => f (a.get i)⟩

/-- The while loop of bisect_right_by, source lines 129 to 140, on word
width w. Each iteration with low < high first forms low + high (an
overflow here is none), takes mid as its floored half, and dispatches on
the comparator at the probed element: Less or Equal moves low to
mid + 1 (again a checked addition), Greater moves high to mid. When the
bounds meet, the loop returns low. -/
def bisectRightLoop {α : Type} (w : Nat) (a : Slice α) (f : α → Ordering)
    (low high : Nat) : Option Nat :=
  if _h : low < high then
    if 2 ^ w ≤ low + high then none
    else
      match f (a.get ((low + high) / 2)) with
      | Ordering.lt | Ordering.eq =>
        if 2 ^ w ≤ (low + high) / 2 + 1 then none
        else bisectRightLoop w a f ((low + high) / 2 + 1) high
      | Ordering.gt => bisectRightLoop w a f low ((low + high) / 2)
  else some low
termination_by high - low
decreasing_by
  all_goals omega

/-- bisect_right_by, source lines 119 to 142: high starts at the slice
length, an empty slice returns 0 at once, otherwise the loop runs on
the full range. -/
def bisect_right_by {α : Type} (w : Nat) (a : Slice α) (f : α → Ordering) :
    Option Nat :=
  if a.len = 0 then some 0 else bisectRightLoop w a f 0 a.len

/-- bisect_right, source lines 37 to 42: delegates to bisect_right_by
with the comparator k.cmp(x). -/
def bisect_right {α : Type} [Ord α] (w : Nat) (a : Slice α) (x : α) :
    Option Nat :=
  bisect_right_by w a (fun k => compare k x)

/-- bisect_right_by_key, source lines 75 to 82: delegates to
bisect_right_by with the comparator f(k).cmp(b). The T : Ord bound of
the source signature is not used by the body and is dropped here. -/
def bisect_right_by_key {α β : Type} [Ord β] (w : Nat) (a : Slice α)
    (b : β) (f : α → β) : Option Nat :=
  bisect_right_by w a (fun k => compare (f k) b)

/-- The while loop of bisect_left_by, source lines 246 to 256, on word
width w. Identical bound narrowing to the right loop except for the
branch mapping: Less moves low to mid + 1, Greater or Equal moves high
to mid. -/
def bisectLeftLoop {α : Type} (w : Nat) (a : Slice α) (f : α → Ordering)
    (low high : Nat) : Option Nat :=
  if _h : low < high then
    if 2 ^ w ≤ low + high then none
    else
      match f (a.get ((low + high) / 2)) with
      | Ordering.lt =>
        if 2 ^ w ≤ (low + high) / 2 + 1 then none
        else bisectLeftLoop w a f ((low + high) / 2 + 1) high
      | Ordering.eq | Ordering.gt => bisectLeftLoop w a f low ((low + high) / 2)
  else some low
termination_by high - low
decreasing_by
  all_goals omega

/-- bisect_left_by, source lines 236 to 259. -/
def bisect_left_by {α : Type} (w : Nat) (a : Slice α) (f : α → Ordering) :
    Option Nat :=
  if a.len = 0 then some 0 else bisectLeftLoop w a f 0 a.len

/-- bisect_left, source lines 164 to 169: delegates to bisect_left_by
with the comparator k.cmp(x). -/
def bisect_left {α : Type} [Ord α] (w : Nat) (a : Slice α) (x : α) :
    Option Nat :=
  bisect_left_by w a (fun k => compare k x)

/-- bisect_left_by_key, source lines 197 to 204: delegates to
bisect_left_by with the comparator f(k).cmp(b). -/
def bisect_left_by_key {α β : Type} [Ord β] (w : Nat) (a : Slice α)
    (b : β) (f : α → β) : Option Nat :=
  bisect_left_by w a (fun k => compare (f k) b)

/-- Ghost instrumentation of the right loop: the same recursion, also
recording for every iteration the triple (low, high, mid) of the bounds
and the probed index of that iteration. The second component coincides
with bisectRightLoop (lemma bisectRightLoopT_snd). -/
def bisectRightLoopT {α : Type} (w : Nat) (a : Slice α) (f : α → Ordering)
    (low high : Nat) : List (Nat × Nat × Nat) × Option Nat :=
  if _h : low < high then
    if 2 ^ w ≤ low + high then ([], none)
    else
      (fun r => ((low, high, (low + high) / 2) :: r.1, r.2))
        (match f (a.get ((low + high) / 2)) with
          | Ordering.lt | Ordering.eq =>
            if 2 ^ w ≤ (low + high) / 2 + 1 then ([], none)
            else bisectRightLoopT w a f ((low + high) / 2 + 1) high
          | Ordering.gt => bisectRightLoopT w a f low ((low + high) / 2))
  else ([], some low)
termination_by high - low
decreasing_by
  all_goals omega

/-- Ghost instrumentation of the left loop, as for the right loop. -/
def bisectLeftLoopT {α : Type} (w : Nat) (a : Slice α) (f : α → Ordering)
    (low high : Nat) : List (Nat × Nat × Nat) × Option Nat :=
  if _h : low < high then
    if 2 ^ w ≤ low + high then ([], none)
    else
      (fun r => ((low, high, (low + high) / 2) :: r.1, r.2))
        (match f (a.get ((low + high) / 2)) with
          | Ordering.lt =>
            if 2 ^ w ≤ (low + high) / 2 + 1 then ([], none)
            else bisectLeftLoopT w a f ((low + high) / 2 + 1) high
          | Ordering.eq | Ordering.gt => bisectLeftLoopT w a f low ((low + high) / 2))
  else ([], some low)
termination_by high - low
decreasing_by
  all_goals omega

/-- The iteration record of a bisect_right_by call: one triple
(low, high, mid) per loop iteration, in execution order. -/
def bisectRightTrace {α : Type} (w : Nat) (a : Slice α) (f : α → Ordering) :
    List (Nat × Nat × Nat) :=
  if a.len = 0 then [] else (bisectRightLoopT w a f 0 a.len).1

/-- The iteration record of a bisect_left_by call. -/
def bisectLeftTrace {α : Type} (w : Nat) (a : Slice α) (f : α → Ordering) :
    List (Nat × Nat × Nat) :=
  if a.len = 0 then [] else (bisectLeftLoopT w a f 0 a.len).1

/-- Exit case of the right loop: when the bounds have met, the loop
returns low. -/
theorem bisectRightLoop_done {α : Type} (w : Nat) (a : Slice α)
    (f : α → Ordering) (low high : Nat) (h : ¬ low < high) :
    bisectRightLoop w a f low high = some low := by
  rw [bisectRightLoop.eq_def, dif_neg h]

/-- Overflow case of the right loop: a sum low + high beyond the usize
range is the arithmetic overflow failure. -/
theorem bisectRightLoop_ovf {α : Type} (w : Nat) (a : Slice α)
    (f : α → Ordering) (low high : Nat) (h : low < high)
    (hov : 2 ^ w ≤ low + high) :
    bisectRightLoop w a f low high = none := by
  rw [bisectRightLoop.eq_def, dif_pos h, if_pos hov]

/-- Step case of the right loop: with valid bounds and no overflow, one
iteration recurses on the half selected by the comparator at mid. -/
theorem bisectRightLoop_step {α : Type} (w : Nat) (a : Slice α)
    (f : α → Ordering) (low high : Nat) (h : low < high)
    (hov : low + high < 2 ^ w) :
    bisectRightLoop w a f low high =
      if f (a.get ((low + high) / 2)) = Ordering.gt
      then bisectRightLoop w a f low ((low + high) / 2)
      else bisectRightLoop w a f ((low + high) / 2 + 1) high := by
  have hmid : ¬ 2 ^ w ≤ (low + high) / 2 + 1 := by omega
  rw [bisectRightLoop.eq_def, dif_pos h, if_neg (not_le.2 hov)]
  rcases hOrd : f (a.get ((low + high) / 2)) with _ | _ | _ <;>
    simp [hOrd, hmid]

/-- Exit case of the left loop. -/
theorem bisectLeftLoop_done {α : Type} (w : Nat) (a : Slice α)
    (f : α → Ordering) (low high : Nat) (h : ¬ low < high) :
    bisectLeftLoop w a f low high = some low := by
  rw [bisectLeftLoop.eq_def, dif_neg h]

/-- Overflow case of the left loop. -/
theorem bisectLeftLoop_ovf {α : Type} (w : Nat) (a : Slice α)
    (f : α → Ordering) (low high : Nat) (h : low < high)
    (hov : 2 ^ w ≤ low + high) :
    bisectLeftLoop w a f low high = none := by
  rw [bisectLeftLoop.eq_def, dif_pos h, if_pos hov]

/-- Step case of the left loop: Less recurses on the upper half, Equal
or Greater on the lower half. -/
theorem bisectLeftLoop_step {α : Type} (w : Nat) (a : Slice α)
    (f : α → Ordering) (low high : Nat) (h : low < high)
    (hov : low + high < 2 ^ w) :
    bisectLeftLoop w a f low high =
      if f (a.get ((low + high) / 2)) = Ordering.lt
      then bisectLeftLoop w a f ((low + high) / 2 + 1) high
      else bisectLeftLoop w a f low ((low + high) / 2) := by
  have hmid : ¬ 2 ^ w ≤ (low + high) / 2 + 1 := by omega
  rw [bisectLeftLoop.eq_def, dif_pos h, if_neg (not_le.2 hov)]
  rcases hOrd : f (a.get ((low + high) / 2)) with _ | _ | _ <;>
    simp [hOrd, hmid]

/-- Exit case of the instrumented right loop. -/
theorem bisectRightLoopT_done {α : Type} (w : Nat) (a : Slice α)
    (f : α → Ordering) (low high : Nat) (h : ¬ low < high) :
    bisectRightLoopT w a f low high = ([], some low) := by
  rw [bisectRightLoopT.eq_def, dif_neg h]

/-- Overflow case of the instrumented right loop. -/
theorem bisectRightLoopT_ovf {α : Type} (w : Nat) (a : Slice α)
    (f : α → Ordering) (low high : Nat) (h : low < high)
    (hov : 2 ^ w ≤ low + high) :
    bisectRightLoopT w a f low high = ([], none) := by
  rw [bisectRightLoopT.eq_def, dif_pos h, if_pos hov]

/-- Step case of the instrumented right loop: the iteration record of
this iteration is prepended to that of the selected half. -/
theorem bisectRightLoopT_step {α : Type} (w : Nat) (a : Slice α)
    (f : α → Ordering) (low high : Nat) (h : low < high)
    (hov : low + high < 2 ^ w) :
    bisectRightLoopT w a f low high =
      ((low, high, (low + high) / 2) ::
        (if f (a.get ((low + high) / 2)) = Ordering.gt
          then bisectRightLoopT w a f low ((low + high) / 2)
          else bisectRightLoopT w a f ((low + high) / 2 + 1) high).1,
        (if f (a.get ((low + high) / 2)) = Ordering.gt
          then bisectRightLoopT w a f low ((low + high) / 2)
          else bisectRightLoopT w a f ((low + high) / 2 + 1) high).2) := by
  have hmid : ¬ 2 ^ w ≤ (low + high) / 2 + 1 := by omega
  rw [bisectRightLoopT.eq_def, dif_pos h, if_neg (not_le.2 hov)]
  rcases hOrd : f (a.get ((low + high) / 2)) with _ | _ | _ <;>
    simp [hOrd, hmid]

/-- Exit case of the instrumented left loop. -/
theorem bisectLeftLoopT_done {α : Type} (w : Nat) (a : Slice α)
    (f : α → Ordering) (low high : Nat) (h : ¬ low < high) :
    bisectLeftLoopT w a f low high = ([], some low) := by
  rw [bisectLeftLoopT.eq_def, dif_neg h]

/-- Overflow case of the instrumented left loop. -/
theorem bisectLeftLoopT_ovf {α : Type} (w : Nat) (a : Slice α)
    (f : α → Ordering) (low high : Nat) (h : low < high)
    (hov : 2 ^ w ≤ low + high) :
    bisectLeftLoopT w a f low high = ([], none) := by
  rw [bisectLeftLoopT.eq_def, dif_pos h, if_pos hov]

/-- Step case of the instrumented left loop. -/
theorem bisectLeftLoopT_step {α : Type} (w : Nat) (a : Slice α)
    (f : α → Ordering) (low high : Nat) (h : low < high)
    (hov : low + high < 2 ^ w) :
    bisectLeftLoopT w a f low high =
      ((low, high, (low + high) / 2) ::
        (if f (a.get ((low + high) / 2)) = Ordering.lt
          then bisectLeftLoopT w a f ((low + high) / 2 + 1) high
          else bisectLeftLoopT w a f low ((low + high) / 2)).1,
        (if f (a.get ((low + high) / 2)) = Ordering.lt
          then bisectLeftLoopT w a f ((low + high) / 2 + 1) high
          else bisectLeftLoopT w a f low ((low + high) / 2)).2) := by
  have hmid : ¬ 2 ^ w ≤ (low + high) / 2 + 1 := by omega
  rw [bisectLeftLoopT.eq_def, dif_pos h, if_neg (not_le.2 hov)]
  rcases hOrd : f (a.get ((low + high) / 2)) with _ | _ | _ <;>
    simp [hOrd, hmid]

/-- A normal return of the right loop lies between the bounds it was
started with. -/
theorem bisectRightLoop_someRange {α : Type} (w : Nat) (a : Slice α)
    (f : α → Ordering) :
    ∀ (k low high i : Nat), high - low ≤ k → low ≤ high →
      bisectRightLoop w a f low high = some i → low ≤ i ∧ i ≤ high := by
  intro k
  induction k with
  | zero =>
    intro low high i hk hle hres
    rw [bisectRightLoop_done w a f low high (by omega)] at hres
    simp only [Option.some.injEq] at hres
    omega
  | succ k ih =>
    intro low high i hk hle hres
    by_cases h : low < high
    · by_cases hov : 2 ^ w ≤ low + high
      · rw [bisectRightLoop_ovf w a f low high h hov] at hres
        simp at hres
      · rw [bisectRightLoop_step w a f low high h (by omega)] at hres
        by_cases hc : f (a.get ((low + high) / 2)) = Ordering.gt
        · rw [if_pos hc] at hres
          have := ih low ((low + high) / 2) i (by omega) (by omega) hres
          omega
        · rw [if_neg hc] at hres
          have := ih ((low + high) / 2 + 1) high i (by omega) (by omega) hres
          omega
    · rw [bisectRightLoop_done w a f low high h] at hres
      simp only [Option.some.injEq] at hres
      omega

/-- A normal return of the left loop lies between the bounds it was
started with. -/
theorem bisectLeftLoop_someRange {α : Type} (w : Nat) (a : Slice α)
    (f : α → Ordering) :
    ∀ (k low high i : Nat), high - low ≤ k → low ≤ high →
      bisectLeftLoop w a f low high = some i → low ≤ i ∧ i ≤ high := by
  intro k
  induction k with
  | zero =>
    intro low high i hk hle hres
    rw [bisectLeftLoop_done w a f low high (by omega)] at hres
    simp only [Option.some.injEq] at hres
    omega
  | succ k ih =>
    intro low high i hk hle hres
    by_cases h : low < high
    · by_cases hov : 2 ^ w ≤ low + high
      · rw [bisectLeftLoop_ovf w a f low high h hov] at hres
        simp at hres
      · rw [bisectLeftLoop_step w a f low high h (by omega)] at hres
        by_cases hc : f (a.get ((low + high) / 2)) = Ordering.lt
        · rw [if_pos hc] at hres
          have := ih ((low + high) / 2 + 1) high i (by omega) (by omega) hres
          omega
        · rw [if_neg hc] at hres
          have := ih low ((low + high) / 2) i (by omega) (by omega) hres
          omega
    · rw [bisectLeftLoop_done w a f low high h] at hres
      simp only [Option.some.injEq] at hres
      omega

/-- With both bounds at most 2 ^ (w - 1), no iteration of the right
loop can overflow, so the loop returns normally. -/
theorem bisectRightLoop_isSome {α : Type} (w : Nat) (a : Slice α)
    (f : α → Ordering) (hw : 1 ≤ w) :
    ∀ (k low high : Nat), high - low ≤ k → high ≤ 2 ^ (w - 1) →
      ∃ i, bisectRightLoop w a f low high = some i := by
  have h2 : 2 ^ (w - 1) * 2 = 2 ^ w := by
    rw [← pow_succ]
    congr 1
    omega
  intro k
  induction k with
  | zero =>
    intro low high hk hhi
    exact ⟨low, bisectRightLoop_done w a f low high (by omega)⟩
  | succ k ih =>
    intro low high hk hhi
    by_cases h : low < high
    · rw [bisectRightLoop_step w a f low high h (by omega)]
      by_cases hc : f (a.get ((low + high) / 2)) = Ordering.gt
      · rw [if_pos hc]
        exact ih low ((low + high) / 2) (by omega) (by omega)
      · rw [if_neg hc]
        exact ih ((low + high) / 2 + 1) high (by omega) hhi
    · exact ⟨low, bisectRightLoop_done w a f low high h⟩

/-- With both bounds at most 2 ^ (w - 1), no iteration of the left
loop can overflow, so the loop returns normally. -/
theorem bisectLeftLoop_isSome {α : Type} (w : Nat) (a : Slice α)
    (f : α → Ordering) (hw : 1 ≤ w) :
    ∀ (k low high : Nat), high - low ≤ k → high ≤ 2 ^ (w - 1) →
      ∃ i, bisectLeftLoop w a f low high = some i := by
  have h2 : 2 ^ (w - 1) * 2 = 2 ^ w := by
    rw [← pow_succ]
    congr 1
    omega
  intro k
  induction k with
  | zero =>
    intro low high hk hhi
    exact ⟨low, bisectLeftLoop_done w a f low high (by omega)⟩
  | succ k ih =>
    intro low high hk hhi
    by_cases h : low < high
    · rw [bisectLeftLoop_step w a f low high h (by omega)]
      by_cases hc : f (a.get ((low + high) / 2)) = Ordering.lt
      · rw [if_pos hc]
        exact ih ((low + high) / 2 + 1) high (by omega) hhi
      · rw [if_neg hc]
        exact ih low ((low + high) / 2) (by omega) (by omega)
    · exact ⟨low, bisectLeftLoop_done w a f low high h⟩

/-- Right-bisection invariant: when the comparator, read as a function
of the index, answers Less or Equal strictly below a partition index p
and Greater from p on (up to N), a normal return of the right loop
started on a range enclosing p is exactly p. -/
theorem bisectRightLoop_partition {α : Type} (w : Nat) (a : Slice α)
    (f : α → Ordering) (p N : Nat)
    (h1 : ∀ j, j < p → f (a.get j) ≠ Ordering.gt)
    (h2 : ∀ j, p ≤ j → j < N → f (a.get j) = Ordering.gt) :
    ∀ (k low high i : Nat), high - low ≤ k → low ≤ p → p ≤ high → high ≤ N →
      bisectRightLoop w a f low high = some i → i = p := by
  intro k
  induction k with
  | zero =>
    intro low high i hk hlo hhi hN hres
    rw [bisectRightLoop_done w a f low high (by omega)] at hres
    simp only [Option.some.injEq] at hres
    omega
  | succ k ih =>
    intro low high i hk hlo hhi hN hres
    by_cases h : low < high
    · by_cases hov : 2 ^ w ≤ low + high
      · rw [bisectRightLoop_ovf w a f low high h hov] at hres
        simp at hres
      · rw [bisectRightLoop_step w a f low high h (by omega)] at hres
        by_cases hc : f (a.get ((low + high) / 2)) = Ordering.gt
        · rw [if_pos hc] at hres
          have hpm : p ≤ (low + high) / 2 := by
            by_contra hlt
            exact h1 ((low + high) / 2) (by omega) hc
          exact ih low ((low + high) / 2) i (by omega) hlo hpm (by omega) hres
        · rw [if_neg hc] at hres
          have hpm : (low + high) / 2 < p := by
            by_contra hge
            exact hc (h2 ((low + high) / 2) (by omega) (by omega))
          exact ih ((low + high) / 2 + 1) high i (by omega) (by omega) hhi hN hres
    · rw [bisectRightLoop_done w a f low high h] at hres
      simp only [Option.some.injEq] at hres
      omega

/-- Left-bisection invariant: when the comparator answers Less strictly
below a partition index p and Equal or Greater from p on (up to N), a
normal return of the left loop started on a range enclosing p is
exactly p. -/
theorem bisectLeftLoop_partition {α : Type} (w : Nat) (a : Slice α)
    (f : α → Ordering) (p N : Nat)
    (h1 : ∀ j, j < p → f (a.get j) = Ordering.lt)
    (h2 : ∀ j, p ≤ j → j < N → f (a.get j) ≠ Ordering.lt) :
    ∀ (k low high i : Nat), high - low ≤ k → low ≤ p → p ≤ high → high ≤ N →
      bisectLeftLoop w a f low high = some i → i = p := by
  intro k
  induction k with
  | zero =>
    intro low high i hk hlo hhi hN hres
    rw [bisectLeftLoop_done w a f low high (by omega)] at hres
    simp only [Option.some.injEq] at hres
    omega
  | succ k ih =>
    intro low high i hk hlo hhi hN hres
    by_cases h : low < high
    · by_cases hov : 2 ^ w ≤ low + high
      · rw [bisectLeftLoop_ovf w a f low high h hov] at hres
        simp at hres
      · rw [bisectLeftLoop_step w a f low high h (by omega)] at hres
        by_cases hc : f (a.get ((low + high) / 2)) = Ordering.lt
        · rw [if_pos hc] at hres
          have hpm : (low + high) / 2 < p := by
            by_contra hge
            exact h2 ((low + high) / 2) (by omega) (by omega) hc
          exact ih ((low + high) / 2 + 1) high i (by omega) (by omega) hhi hN hres
        · rw [if_neg hc] at hres
          have hpm : p ≤ (low + high) / 2 := by
            by_contra hlt
            exact hc (h1 ((low + high) / 2) (by omega))
          exact ih low ((low + high) / 2) i (by omega) hlo hpm (by omega) hres
    · rw [bisectLeftLoop_done w a f low high h] at hres
      simp only [Option.some.injEq] at hres
      omega

/-- The instrumented right loop computes the same result as the loop of
the source; the instrumentation only records the iterations. -/
theorem bisectRightLoopT_snd {α : Type} (w : Nat) (a : Slice α)
    (f : α → Ordering) :
    ∀ (k low high : Nat), high - low ≤ k →
      (bisectRightLoopT w a f low high).2 = bisectRightLoop w a f low high := by
  intro k
  induction k with
  | zero =>
    intro low high hk
    rw [bisectRightLoopT_done w a f low high (by omega),
      bisectRightLoop_done w a f low high (by omega)]
  | succ k ih =>
    intro low high hk
    by_cases h : low < high
    · by_cases hov : 2 ^ w ≤ low + high
      · rw [bisectRightLoopT_ovf w a f low high h hov,
          bisectRightLoop_ovf w a f low high h hov]
      · by_cases hc : f (a.get ((low + high) / 2)) = Ordering.gt
        · rw [bisectRightLoopT_step w a f low high h (by omega),
            bisectRightLoop_step w a f low high h (by omega), if_pos hc, if_pos hc]
          exact ih low ((low + high) / 2) (by omega)
        · rw [bisectRightLoopT_step w a f low high h (by omega),
            bisectRightLoop_step w a f low high h (by omega), if_neg hc, if_neg hc]
          exact ih ((low + high) / 2 + 1) high (by omega)
    · rw [bisectRightLoopT_done w a f low high h,
        bisectRightLoop_done w a f low high h]

/-- The instrumented left loop computes the same result as the loop of
the source. -/
theorem bisectLeftLoopT_snd {α : Type} (w : Nat) (a : Slice α)
    (f : α → Ordering) :
    ∀ (k low high : Nat), high - low ≤ k →
      (bisectLeftLoopT w a f low high).2 = bisectLeftLoop w a f low high := by
  intro k
  induction k with
  | zero =>
    intro low high hk
    rw [bisectLeftLoopT_done w a f low high (by omega),
      bisectLeftLoop_done w a f low high (by omega)]
  | succ k ih =>
    intro low high hk
    by_cases h : low < high
    · by_cases hov : 2 ^ w ≤ low + high
      · rw [bisectLeftLoopT_ovf w a f low high h hov,
          bisectLeftLoop_ovf w a f low high h hov]
      · by_cases hc : f (a.get ((low + high) / 2)) = Ordering.lt
        · rw [bisectLeftLoopT_step w a f low high h (by omega),
            bisectLeftLoop_step w a f low high h (by omega), if_pos hc, if_pos hc]
          exact ih ((low + high) / 2 + 1) high (by omega)
        · rw [bisectLeftLoopT_step w a f low high h (by omega),
            bisectLeftLoop_step w a f low high h (by omega), if_neg hc, if_neg hc]
          exact ih low ((low + high) / 2) (by omega)
    · rw [bisectLeftLoopT_done w a f low high h,
        bisectLeftLoop_done w a f low high h]

/-- Bounds of every recorded iteration of the right loop: in an entry
(l, h, m), the probed index m satisfies l <= m < h, and the window
[l, h) is inside the starting window [low, high). -/
theorem bisectRightLoopT_mem {α : Type} (w : Nat) (a : Slice α)
    (f : α → Ordering) :
    ∀ (k low high : Nat), high - low ≤ k →
      ∀ e ∈ (bisectRightLoopT w a f low high).1,
        low ≤ e.1 ∧ e.1 ≤ e.2.2 ∧ e.2.2 < e.2.1 ∧ e.2.1 ≤ high := by
  intro k
  induction k with
  | zero =>
    intro low high hk e he
    rw [bisectRightLoopT_done w a f low high (by omega)] at he
    simp at he
  | succ k ih =>
    intro low high hk e he
    by_cases h : low < high
    · by_cases hov : 2 ^ w ≤ low + high
      · rw [bisectRightLoopT_ovf w a f low high h hov] at he
        simp at he
      · rw [bisectRightLoopT_step w a f low high h (by omega)] at he
        rcases List.mem_cons.1 he with he | he
        · subst he
          refine ⟨le_rfl, ?_, ?_, le_rfl⟩ <;> simp <;> omega
        · by_cases hc : f (a.get ((low + high) / 2)) = Ordering.gt
          · rw [if_pos hc] at he
            have := ih low ((low + high) / 2) (by omega) e he
            omega
          · rw [if_neg hc] at he
            have := ih ((low + high) / 2 + 1) high (by omega) e he
            omega
    · rw [bisectRightLoopT_done w a f low high h] at he
      simp at he

/-- Bounds of every recorded iteration of the left loop. -/
theorem bisectLeftLoopT_mem {α : Type} (w : Nat) (a : Slice α)
    (f : α → Ordering) :
    ∀ (k low high : Nat), high - low ≤ k →
      ∀ e ∈ (bisectLeftLoopT w a f low high).1,
        low ≤ e.1 ∧ e.1 ≤ e.2.2 ∧ e.2.2 < e.2.1 ∧ e.2.1 ≤ high := by
  intro k
  induction k with
  | zero =>
    intro low high hk e he
    rw [bisectLeftLoopT_done w a f low high (by omega)] at he
    simp at he
  | succ k ih =>
    intro low high hk e he
    by_cases h : low < high
    · by_cases hov : 2 ^ w ≤ low + high
      · rw [bisectLeftLoopT_ovf w a f low high h hov] at he
        simp at he
      · rw [bisectLeftLoopT_step w a f low high h (by omega)] at he
        rcases List.mem_cons.1 he with he | he
        · subst he
          refine ⟨le_rfl, ?_, ?_, le_rfl⟩ <;> simp <;> omega
        · by_cases hc : f (a.get ((low + high) / 2)) = Ordering.lt
          · rw [if_pos hc] at he
            have := ih ((low + high) / 2 + 1) high (by omega) e he
            omega
          · rw [if_neg hc] at he
            have := ih low ((low + high) / 2) (by omega) e he
            omega
    · rw [bisectLeftLoopT_done w a f low high h] at he
      simp at he

/-- No index is probed twice by the right loop: the probed index of an
iteration is excluded from the window of every later iteration. -/
theorem bisectRightLoopT_nodup {α : Type} (w : Nat) (a : Slice α)
    (f : α → Ordering) :
    ∀ (k low high : Nat), high - low ≤ k →
      ((bisectRightLoopT w a f low high).1.map (fun e => e.2.2)).Nodup := by
  intro k
  induction k with
  | zero =>
    intro low high hk
    rw [bisectRightLoopT_done w a f low high (by omega)]
    simp
  | succ k ih =>
    intro low high hk
    by_cases h : low < high
    · by_cases hov : 2 ^ w ≤ low + high
      · rw [bisectRightLoopT_ovf w a f low high h hov]
        simp
      · rw [bisectRightLoopT_step w a f low high h (by omega)]
        rw [List.map_cons, List.nodup_cons]
        by_cases hc : f (a.get ((low + high) / 2)) = Ordering.gt
        · rw [if_pos hc]
          refine ⟨?_, ih low ((low + high) / 2) (by omega)⟩
          intro hmem
          rcases List.mem_map.1 hmem with ⟨e, he, hme⟩
          simp only at hme
          have := bisectRightLoopT_mem w a f k low ((low + high) / 2)
            (by omega) e he
          omega
        · rw [if_neg hc]
          refine ⟨?_, ih ((low + high) / 2 + 1) high (by omega)⟩
          intro hmem
          rcases List.mem_map.1 hmem with ⟨e, he, hme⟩
          simp only at hme
          have := bisectRightLoopT_mem w a f k ((low + high) / 2 + 1) high
            (by omega) e he
          omega
    · rw [bisectRightLoopT_done w a f low high h]
      simp

/-- No index is probed twice by the left loop. -/
theorem bisectLeftLoopT_nodup {α : Type} (w : Nat) (a : Slice α)
    (f : α → Ordering) :
    ∀ (k low high : Nat), high - low ≤ k →
      ((bisectLeftLoopT w a f low high).1.map (fun e => e.2.2)).Nodup := by
  intro k
  induction k with
  | zero =>
    intro low high hk
    rw [bisectLeftLoopT_done w a f low high (by omega)]
    simp
  | succ k ih =>
    intro low high hk
    by_cases h : low < high
    · by_cases hov : 2 ^ w ≤ low + high
      · rw [bisectLeftLoopT_ovf w a f low high h hov]
        simp
      · rw [bisectLeftLoopT_step w a f low high h (by omega)]
        rw [List.map_cons, List.nodup_cons]
        by_cases hc : f (a.get ((low + high) / 2)) = Ordering.lt
        · rw [if_pos hc]
          refine ⟨?_, ih ((low + high) / 2 + 1) high (by omega)⟩
          intro hmem
          rcases List.mem_map.1 hmem with ⟨e, he, hme⟩
          simp only at hme
          have := bisectLeftLoopT_mem w a f k ((low + high) / 2 + 1) high
            (by omega) e he
          omega
        · rw [if_neg hc]
          refine ⟨?_, ih low ((low + high) / 2) (by omega)⟩
          intro hmem
          rcases List.mem_map.1 hmem with ⟨e, he, hme⟩
          simp only at hme
          have := bisectLeftLoopT_mem w a f k low ((low + high) / 2)
            (by omega) e he
          omega
    · rw [bisectLeftLoopT_done w a f low high h]
      simp

/-- Iteration count of the right loop: a window of fewer than 2 ^ k
indices is exhausted within k iterations, every iteration at least
halving the window. -/
theorem bisectRightLoopT_len {α : Type} (w : Nat) (a : Slice α)
    (f : α → Ordering) :
    ∀ (k low high : Nat), high - low < 2 ^ k →
      (bisectRightLoopT w a f low high).1.length ≤ k := by
  intro k
  induction k with
  | zero =>
    intro low high hk
    rw [bisectRightLoopT_done w a f low high (by simp at hk; omega)]
    simp
  | succ k ih =>
    intro low high hk
    by_cases h : low < high
    · by_cases hov : 2 ^ w ≤ low + high
      · rw [bisectRightLoopT_ovf w a f low high h hov]
        simp
      · rw [bisectRightLoopT_step w a f low high h (by omega)]
        have hpow : 2 ^ (k + 1) = 2 ^ k * 2 := pow_succ 2 k
        by_cases hc : f (a.get ((low + high) / 2)) = Ordering.gt
        · rw [if_pos hc]
          simp only [List.length_cons]
          have := ih low ((low + high) / 2) (by omega)
          omega
        · rw [if_neg hc]
          simp only [List.length_cons]
          have := ih ((low + high) / 2 + 1) high (by omega)
          omega
    · rw [bisectRightLoopT_done w a f low high h]
      simp

/-- Iteration count of the left loop. -/
theorem bisectLeftLoopT_len {α : Type} (w : Nat) (a : Slice α)
    (f : α → Ordering) :
    ∀ (k low high : Nat), high - low < 2 ^ k →
      (bisectLeftLoopT w a f low high).1.length ≤ k := by
  intro k
  induction k with
  | zero =>
    intro low high hk
    rw [bisectLeftLoopT_done w a f low high (by simp at hk; omega)]
    simp
  | succ k ih =>
    intro low high hk
    by_cases h : low < high
    · by_cases hov : 2 ^ w ≤ low + high
      · rw [bisectLeftLoopT_ovf w a f low high h hov]
        simp
      · rw [bisectLeftLoopT_step w a f low high h (by omega)]
        have hpow : 2 ^ (k + 1) = 2 ^ k * 2 := pow_succ 2 k
        by_cases hc : f (a.get ((low + high) / 2)) = Ordering.lt
        · rw [if_pos hc]
          simp only [List.length_cons]
          have := ih ((low + high) / 2 + 1) high (by omega)
          omega
        · rw [if_neg hc]
          simp only [List.length_cons]
          have := ih low ((low + high) / 2) (by omega)
          omega
    · rw [bisectLeftLoopT_done w a f low high h]
      simp

/-- The right loop only reads the composition of the comparator with
the indexing of the slice, so two calls agreeing on that composition
agree everywhere. -/
theorem bisectRightLoop_congr {α β : Type} (w : Nat) (a : Slice α)
    (b : Slice β) (f : α → Ordering) (g : β → Ordering)
    (hfg : ∀ i, f (a.get i) = g (b.get i)) :
    ∀ (k low high : Nat), high - low ≤ k →
      bisectRightLoop w a f low high = bisectRightLoop w b g low high := by
  intro k
  induction k with
  | zero =>
    intro low high hk
    rw [bisectRightLoop_done w a f low high (by omega),
      bisectRightLoop_done w b g low high (by omega)]
  | succ k ih =>
    intro low high hk
    by_cases h : low < high
    · by_cases hov : 2 ^ w ≤ low + high
      · rw [bisectRightLoop_ovf w a f low high h hov,
          bisectRightLoop_ovf w b g low high h hov]
      · rw [bisectRightLoop_step w a f low high h (by omega),
          bisectRightLoop_step w b g low high h (by omega), hfg]
        by_cases hc : g (b.get ((low + high) / 2)) = Ordering.gt
        · rw [if_pos hc, if_pos hc]
          exact ih low ((low + high) / 2) (by omega)
        · rw [if_neg hc, if_neg hc]
          exact ih ((low + high) / 2 + 1) high (by omega)
    · rw [bisectRightLoop_done w a f low high h,
        bisectRightLoop_done w b g low high h]

/-- The left loop only reads the composition of the comparator with the
indexing of the slice. -/
theorem bisectLeftLoop_congr {α β : Type} (w : Nat) (a : Slice α)
    (b : Slice β) (f : α → Ordering) (g : β → Ordering)
    (hfg : ∀ i, f (a.get i) = g (b.get i)) :
    ∀ (k low high : Nat), high - low ≤ k →
      bisectLeftLoop w a f low high = bisectLeftLoop w b g low high := by
  intro k
  induction k with
  | zero =>
    intro low high hk
    rw [bisectLeftLoop_done w a f low high (by omega),
      bisectLeftLoop_done w b g low high (by omega)]
  | succ k ih =>
    intro low high hk
    by_cases h : low < high
    · by_cases hov : 2 ^ w ≤ low + high
      · rw [bisectLeftLoop_ovf w a f low high h hov,
          bisectLeftLoop_ovf w b g low high h hov]
      · rw [bisectLeftLoop_step w a f low high h (by omega),
          bisectLeftLoop_step w b g low high h (by omega), hfg]
        by_cases hc : g (b.get ((low + high) / 2)) = Ordering.lt
        · rw [if_pos hc, if_pos hc]
          exact ih ((low + high) / 2 + 1) high (by omega)
        · rw [if_neg hc, if_neg hc]
          exact ih low ((low + high) / 2) (by omega)
    · rw [bisectLeftLoop_done w a f low high h,
        bisectLeftLoop_done w b g low high h]

/-- A sorted list of integers is partitioned by any predicate that is
downward closed with respect to the order: some index p has the
predicate holding strictly below it and failing from it on. -/
theorem sorted_partition (P : Int → Prop)
    (hP : ∀ x y : Int, x ≤ y → P y → P x) :
    ∀ (S : List Int), S.Sorted (· ≤ ·) →
      ∃ p, p ≤ S.length ∧ (∀ j, j < p → P (S.getD j 0)) ∧
        (∀ j, p ≤ j → j < S.length → ¬ P (S.getD j 0)) := by
  intro S
  induction S with
  | nil =>
    intro _
    refine ⟨0, by simp, ?_, ?_⟩
    · intro j hj
      exact absurd hj (Nat.not_lt_zero j)
    · intro j _ hjlen
      simp at hjlen
  | cons x t ih =>
    intro hs
    rw [List.sorted_cons] at hs
    obtain ⟨hx, hts⟩ := hs
    by_cases hPx : P x
    · obtain ⟨p, hp, h1, h2⟩ := ih hts
      refine ⟨p + 1, by simp only [List.length_cons]; omega, ?_, ?_⟩
      · intro j hj
        cases j with
        | zero => simpa using hPx
        | succ n =>
          rw [List.getD_cons_succ]
          exact h1 n (by omega)
      · intro j hj hjlen
        cases j with
        | zero => omega
        | succ n =>
          rw [List.getD_cons_succ]
          exact h2 n (by omega) (by simp only [List.length_cons] at hjlen; omega)
    · refine ⟨0, by omega, ?_, ?_⟩
      · intro j hj
        exact absurd hj (Nat.not_lt_zero j)
      · intro j _ hjlen
        cases j with
        | zero => simpa using hPx
        | succ n =>
          rw [List.getD_cons_succ]
          intro hPn
          have hmem : t.getD n 0 ∈ t := by
            rw [List.getD_eq_getElem t 0
              (by simp only [List.length_cons] at hjlen; omega)]
            exact List.getElem_mem _
          exact hPx (hP x (t.getD n 0) (hx _ hmem) hPn)

/-- The comparator k.cmp(x) on integers answers Less exactly below x. -/
theorem int_cmp_lt (a b : Int) : compare a b = Ordering.lt ↔ a < b :=
  compare_lt_iff_lt

/-- The comparator k.cmp(x) on integers answers Greater exactly above
x, so it answers Less or Equal exactly at or below x. -/
theorem int_cmp_ne_gt (a b : Int) : compare a b ≠ Ordering.gt ↔ a ≤ b := by
  rw [Ne, compare_gt_iff_gt, not_lt]

/-- The comparator k.cmp(x) on integers answers Equal or Greater
exactly at or above x. -/
theorem int_cmp_ne_lt (a b : Int) : compare a b ≠ Ordering.lt ↔ b ≤ a := by
  rw [Ne, compare_lt_iff_lt, not_lt]

/-- The right-bisection contract of spec section 4.1 at index i: i is
in [0, len], every element strictly below i compares Less or Equal, and
every element from i on compares Greater. -/
def RightPost {α : Type} (a : Slice α) (f : α → Ordering) (i : Nat) : Prop :=
  i ≤ a.len ∧ (∀ j, j < i → f (a.get j) ≠ Ordering.gt) ∧
    ∀ j, i ≤ j → j < a.len → f (a.get j) = Ordering.gt

/-- The left-bisection contract of spec section 4.2 at index i: i is in
[0, len], every element strictly below i compares Less, and every
element from i on compares Equal or Greater. -/
def LeftPost {α : Type} (a : Slice α) (f : α → Ordering) (i : Nat) : Prop :=
  i ≤ a.len ∧ (∀ j, j < i → f (a.get j) = Ordering.lt) ∧
    ∀ j, i ≤ j → j < a.len → f (a.get j) ≠ Ordering.lt

/-- Claim C1: for a comparator that is monotonic over the slice in the
right-bisection sense (Less or Equal strictly below a partition index
p, Greater from p on), bisect_right_by returns the smallest index
satisfying the contract of spec section 4.1, and bisect_right and
bisect_right_by_key delegate to bisect_right_by definitionally, so the
same postcondition transfers to them under their sortedness
preconditions. The slice length is kept within the overflow-free range
2 ^ (w - 1); the overflow regime is settled separately by claims C3
and C4. -/
theorem bisect_right_by_correct {α : Type} (w : Nat) (a : Slice α)
    (f : α → Ordering) (p : Nat) (hw : 1 ≤ w) (hn : a.len ≤ 2 ^ (w - 1))
    (hp : p ≤ a.len)
    (h1 : ∀ j, j < p → f (a.get j) ≠ Ordering.gt)
    (h2 : ∀ j, p ≤ j → j < a.len → f (a.get j) = Ordering.gt) :
    (∃ i, bisect_right_by w a f = some i ∧ RightPost a f i ∧
      ∀ i2, RightPost a f i2 → i ≤ i2) ∧
    (∀ (o : Ord α) (x : α), @bisect_right α o w a x =
      bisect_right_by w a (fun k => @compare α o k x)) ∧
    (∀ (β : Type) (o : Ord β) (b : β) (g : α → β),
      @bisect_right_by_key α β o w a b g =
        bisect_right_by w a (fun k => @compare β o (g k) b)) := by
  refine ⟨?_, fun o x => rfl, fun β o b g => rfl⟩
  by_cases h0 : a.len = 0
  · refine ⟨0, ?_, ⟨by omega, ?_, ?_⟩, fun i2 _ => Nat.zero_le i2⟩
    · rw [bisect_right_by, if_pos h0]
    · intro j hj
      exact absurd hj (by omega)
    · intro j _ hjl
      exact absurd hjl (by omega)
  · obtain ⟨i, hi⟩ := bisectRightLoop_isSome w a f hw a.len 0 a.len
      (by omega) hn
    have hip : i = p := bisectRightLoop_partition w a f p a.len h1 h2 a.len
      0 a.len i (by omega) (by omega) hp le_rfl hi
    subst hip
    refine ⟨i, ?_, ⟨hp, h1, h2⟩, ?_⟩
    · rw [bisect_right_by, if_neg h0]
      exact hi
    · intro i2 hpost
      by_contra hlt
      push_neg at hlt
      exact h1 i2 hlt (hpost.2.2 i2 le_rfl (by omega))

/-- Concrete instantiation of claim C1 at width 8 on the slice [1, 3]
with query 2 and partition index 1. -/
theorem bisect_right_by_correct_witness :
    (1 ≤ (8 : Nat)) ∧ (Slice.ofList (0 : Int) [1, 3]).len ≤ 2 ^ (8 - 1) ∧
    (1 ≤ (Slice.ofList (0 : Int) [1, 3]).len) ∧
    (∀ j, j < 1 →
      (fun k => compare k (2 : Int)) ((Slice.ofList (0 : Int) [1, 3]).get j) ≠
        Ordering.gt) ∧
    (∀ j, 1 ≤ j → j < (Slice.ofList (0 : Int) [1, 3]).len →
      (fun k => compare k (2 : Int)) ((Slice.ofList (0 : Int) [1, 3]).get j) =
        Ordering.gt) ∧
    ((∃ i, bisect_right_by 8 (Slice.ofList (0 : Int) [1, 3])
        (fun k => compare k (2 : Int)) = some i ∧
      RightPost (Slice.ofList (0 : Int) [1, 3])
        (fun k => compare k (2 : Int)) i ∧
      ∀ i2, RightPost (Slice.ofList (0 : Int) [1, 3])
        (fun k => compare k (2 : Int)) i2 → i ≤ i2) ∧
    (∀ (o : Ord Int) (x : Int),
      @bisect_right Int o 8 (Slice.ofList (0 : Int) [1, 3]) x =
        bisect_right_by 8 (Slice.ofList (0 : Int) [1, 3])
          (fun k => @compare Int o k x)) ∧
    (∀ (β : Type) (o : Ord β) (b : β) (g : Int → β),
      @bisect_right_by_key Int β o 8 (Slice.ofList (0 : Int) [1, 3]) b g =
        bisect_right_by 8 (Slice.ofList (0 : Int) [1, 3])
          (fun k => @compare β o (g k) b))) :=
  ⟨by decide, by decide, by decide, by decide,
    by
      intro j hj1 hj2
      have hj : j = 1 := by
        simp only [Slice.ofList, List.length_cons, List.length_nil] at hj2
        omega
      subst hj
      decide,
    bisect_right_by_correct 8 (Slice.ofList (0 : Int) [1, 3])
      (fun k => compare k (2 : Int)) 1 (by decide) (by decide) (by decide)
      (by decide)
      (by
        intro j hj1 hj2
        have hj : j = 1 := by
          simp only [Slice.ofList, List.length_cons, List.length_nil] at hj2
          omega
        subst hj
        decide)⟩

/-- Claim C2: for a comparator that is monotonic over the slice in the
left-bisection sense (Less strictly below a partition index p, Equal or
Greater from p on), bisect_left_by returns the smallest index
satisfying the contract of spec section 4.2, and bisect_left and
bisect_left_by_key delegate to bisect_left_by definitionally, so the
same postcondition transfers to them under their sortedness
preconditions. The slice length is kept within the overflow-free range
2 ^ (w - 1). -/
theorem bisect_left_by_correct {α : Type} (w : Nat) (a : Slice α)
    (f : α → Ordering) (p : Nat) (hw : 1 ≤ w) (hn : a.len ≤ 2 ^ (w - 1))
    (hp : p ≤ a.len)
    (h1 : ∀ j, j < p → f (a.get j) = Ordering.lt)
    (h2 : ∀ j, p ≤ j → j < a.len → f (a.get j) ≠ Ordering.lt) :
    (∃ i, bisect_left_by w a f = some i ∧ LeftPost a f i ∧
      ∀ i2, LeftPost a f i2 → i ≤ i2) ∧
    (∀ (o : Ord α) (x : α), @bisect_left α o w a x =
      bisect_left_by w a (fun k => @compare α o k x)) ∧
    (∀ (β : Type) (o : Ord β) (b : β) (g : α → β),
      @bisect_left_by_key α β o w a b g =
        bisect_left_by w a (fun k => @compare β o (g k) b)) := by
  refine ⟨?_, fun o x => rfl, fun β o b g => rfl⟩
  by_cases h0 : a.len = 0
  · refine ⟨0, ?_, ⟨by omega, ?_, ?_⟩, fun i2 _ => Nat.zero_le i2⟩
    · rw [bisect_left_by, if_pos h0]
    · intro j hj
      exact absurd hj (by omega)
    · intro j _ hjl
      exact absurd hjl (by omega)
  · obtain ⟨i, hi⟩ := bisectLeftLoop_isSome w a f hw a.len 0 a.len
      (by omega) hn
    have hip : i = p := bisectLeftLoop_partition w a f p a.len h1 h2 a.len
      0 a.len i (by omega) (by omega) hp le_rfl hi
    subst hip
    refine ⟨i, ?_, ⟨hp, h1, h2⟩, ?_⟩
    · rw [bisect_left_by, if_neg h0]
      exact hi
    · intro i2 hpost
      by_contra hlt
      push_neg at hlt
      exact hpost.2.2 i2 le_rfl (by omega) (h1 i2 hlt)

/-- Concrete instantiation of claim C2 at width 8 on the slice [1, 3]
with query 2 and partition index 1. -/
theorem bisect_left_by_correct_witness :
    (1 ≤ (8 : Nat)) ∧ (Slice.ofList (0 : Int) [1, 3]).len ≤ 2 ^ (8 - 1) ∧
    (1 ≤ (Slice.ofList (0 : Int) [1, 3]).len) ∧
    (∀ j, j < 1 →
      (fun k => compare k (2 : Int)) ((Slice.ofList (0 : Int) [1, 3]).get j) =
        Ordering.lt) ∧
    (∀ j, 1 ≤ j → j < (Slice.ofList (0 : Int) [1, 3]).len →
      (fun k => compare k (2 : Int)) ((Slice.ofList (0 : Int) [1, 3]).get j) ≠
        Ordering.lt) ∧
    ((∃ i, bisect_left_by 8 (Slice.ofList (0 : Int) [1, 3])
        (fun k => compare k (2 : Int)) = some i ∧
      LeftPost (Slice.ofList (0 : Int) [1, 3])
        (fun k => compare k (2 : Int)) i ∧
      ∀ i2, LeftPost (Slice.ofList (0 : Int) [1, 3])
        (fun k => compare k (2 : Int)) i2 → i ≤ i2) ∧
    (∀ (o : Ord Int) (x : Int),
      @bisect_left Int o 8 (Slice.ofList (0 : Int) [1, 3]) x =
        bisect_left_by 8 (Slice.ofList (0 : Int) [1, 3])
          (fun k => @compare Int o k x)) ∧
    (∀ (β : Type) (o : Ord β) (b : β) (g : Int → β),
      @bisect_left_by_key Int β o 8 (Slice.ofList (0 : Int) [1, 3]) b g =
        bisect_left_by 8 (Slice.ofList (0 : Int) [1, 3])
          (fun k => @compare β o (g k) b))) :=
  ⟨by decide, by decide, by decide, by decide,
    by
      intro j hj1 hj2
      have hj : j = 1 := by
        simp only [Slice.ofList, List.length_cons, List.length_nil] at hj2
        omega
      subst hj
      decide,
    bisect_left_by_correct 8 (Slice.ofList (0 : Int) [1, 3])
      (fun k => compare k (2 : Int)) 1 (by decide) (by decide) (by decide)
      (by decide)
      (by
        intro j hj1 hj2
        have hj : j = 1 := by
          simp only [Slice.ofList, List.length_cons, List.length_nil] at hj2
          omega
        subst hj
        decide)⟩

/-- Claim C3: on a slice of the maximum representable length usizeMax w
whose elements all compare Equal to the query, bisect_right reaches the
arithmetic overflow failure: after the first iteration moves low to
(usizeMax w) / 2 + 1, the sum low + high of the second iteration
exceeds usizeMax w. The result is the defined failure none, never a
wrapped or truncated index. Holds for every word width of at least two
bits, in particular for the real platform widths. -/
theorem bisect_right_overflow_at_max (w : Nat) (hw : 2 ≤ w) :
    bisect_right w (Slice.mk (usizeMax w) (fun _ => (0 : Int))) (0 : Int) =
      none := by
  have h4 : 4 ≤ 2 ^ w := by
    calc (4 : Nat) = 2 ^ 2 := by norm_num
    _ ≤ 2 ^ w := Nat.pow_le_pow_right (by norm_num) hw
  have hM : usizeMax w = 2 ^ w - 1 := rfl
  rw [bisect_right, bisect_right_by]
  simp only
  rw [if_neg (by rw [hM]; omega)]
  rw [bisectRightLoop_step w _ _ 0 (usizeMax w) (by rw [hM]; omega)
    (by rw [hM]; omega)]
  simp only
  rw [if_neg (by decide : ¬ compare (0 : Int) 0 = Ordering.gt)]
  exact bisectRightLoop_ovf w _ _ ((0 + usizeMax w) / 2 + 1) (usizeMax w)
    (by rw [hM]; omega) (by rw [hM]; omega)

/-- Concrete instantiation of claim C3 at the 64 bit word width. -/
theorem bisect_right_overflow_at_max_witness :
    (2 ≤ (64 : Nat)) ∧
    bisect_right 64 (Slice.mk (usizeMax 64) (fun _ => (0 : Int)))
      (0 : Int) = none :=
  ⟨by decide, bisect_right_overflow_at_max 64 (by decide)⟩

/-- Left-bisection also reaches the arithmetic overflow failure on a
slice of the maximum representable length when the comparator answers
Less everywhere (a query above every element): the first iteration
moves low to (usizeMax w) / 2 + 1 and the sum low + high of the second
iteration exceeds usizeMax w. -/
theorem bisect_left_overflow_at_max (w : Nat) (hw : 2 ≤ w) :
    bisect_left_by w (Slice.mk (usizeMax w) (fun _ => (0 : Int)))
      (fun _ => Ordering.lt) = none := by
  have h4 : 4 ≤ 2 ^ w := by
    calc (4 : Nat) = 2 ^ 2 := by norm_num
    _ ≤ 2 ^ w := Nat.pow_le_pow_right (by norm_num) hw
  have hM : usizeMax w = 2 ^ w - 1 := rfl
  rw [bisect_left_by]
  simp only
  rw [if_neg (by rw [hM]; omega)]
  rw [bisectLeftLoop_step w _ _ 0 (usizeMax w) (by rw [hM]; omega)
    (by rw [hM]; omega)]
  simp only
  rw [if_true]
  exact bisectLeftLoop_ovf w _ _ ((0 + usizeMax w) / 2 + 1) (usizeMax w)
    (by rw [hM]; omega) (by rw [hM]; omega)

/-- Counterexample to claim C4 as stated: bisect_left_by does encounter
arithmetic overflow, at the 64 bit word width, on a slice of length
usizeMax 64 with a comparator answering Less everywhere, refuting that
overflow occurs only in right-bisection. -/
theorem bisect_left_by_overflow_cex :
    bisect_left_by 64 (Slice.mk (usizeMax 64) (fun _ => (0 : Int)))
      (fun _ => Ordering.lt) = none :=
  bisect_left_overflow_at_max 64 (by decide)

/-- Claim C4 (amended): arithmetic overflow is not exclusive to
right-bisection (see the counterexample); what does hold is that for
every slice whose length is at most 2 ^ (w - 1) no iteration of either
direction can overflow, so bisect_left_by and bisect_right_by return a
defined index for every comparator whatsoever. -/
theorem bisect_no_overflow_upto_half {α : Type} (w : Nat) (hw : 1 ≤ w)
    (a : Slice α) (f g : α → Ordering) (hn : a.len ≤ 2 ^ (w - 1)) :
    (∃ i, bisect_left_by w a f = some i) ∧
    (∃ i, bisect_right_by w a g = some i) := by
  constructor
  · by_cases h0 : a.len = 0
    · exact ⟨0, by rw [bisect_left_by, if_pos h0]⟩
    · obtain ⟨i, hi⟩ := bisectLeftLoop_isSome w a f hw a.len 0 a.len
        (by omega) hn
      exact ⟨i, by rw [bisect_left_by, if_neg h0]; exact hi⟩
  · by_cases h0 : a.len = 0
    · exact ⟨0, by rw [bisect_right_by, if_pos h0]⟩
    · obtain ⟨i, hi⟩ := bisectRightLoop_isSome w a g hw a.len 0 a.len
        (by omega) hn
      exact ⟨i, by rw [bisect_right_by, if_neg h0]; exact hi⟩

/-- Concrete instantiation of the amended claim C4 at width 8 on a
singleton slice. -/
theorem bisect_no_overflow_upto_half_witness :
    (1 ≤ (8 : Nat)) ∧ (Slice.ofList (0 : Int) [5]).len ≤ 2 ^ (8 - 1) ∧
    ((∃ i, bisect_left_by 8 (Slice.ofList (0 : Int) [5])
        (fun _ => Ordering.lt) = some i) ∧
      (∃ i, bisect_right_by 8 (Slice.ofList (0 : Int) [5])
        (fun _ => Ordering.eq) = some i)) :=
  ⟨by decide, by decide,
    bisect_no_overflow_upto_half 8 (by decide) (Slice.ofList (0 : Int) [5])
      (fun _ => Ordering.lt) (fun _ => Ordering.eq) (by decide)⟩

/-- A defined result of bisect_right_by is at most the slice length. -/
theorem bisect_right_by_le {α : Type} (w : Nat) (a : Slice α)
    (f : α → Ordering) : (bisect_right_by w a f).getD 0 ≤ a.len := by
  rw [bisect_right_by]
  by_cases h0 : a.len = 0
  · rw [if_pos h0]
    simp
  · rw [if_neg h0]
    cases hres : bisectRightLoop w a f 0 a.len with
    | none => simp
    | some i =>
      simp only [Option.getD_some]
      exact (bisectRightLoop_someRange w a f a.len 0 a.len i (by omega)
        (by omega) hres).2

/-- A defined result of bisect_left_by is at most the slice length. -/
theorem bisect_left_by_le {α : Type} (w : Nat) (a : Slice α)
    (f : α → Ordering) : (bisect_left_by w a f).getD 0 ≤ a.len := by
  rw [bisect_left_by]
  by_cases h0 : a.len = 0
  · rw [if_pos h0]
    simp
  · rw [if_neg h0]
    cases hres : bisectLeftLoop w a f 0 a.len with
    | none => simp
    | some i =>
      simp only [Option.getD_some]
      exact (bisectLeftLoop_someRange w a f a.len 0 a.len i (by omega)
        (by omega) hres).2

/-- Claim C5: for every slice and every comparator whatsoever, both
loops terminate (they are total functions, defined by recursion on the
strictly decreasing measure high - low, exactly the loop measure of
the source), all six public functions return an index within
[0, len] whenever they return at all (the defined value of a none
result reads as 0 here), and no iteration of either loop probes an
index outside [0, len). -/
theorem all_results_in_range {α β : Type} [Ord α] [Ord β] (w : Nat)
    (a : Slice α) (f : α → Ordering) (x : α) (b : β) (g : α → β) :
    (bisect_right_by w a f).getD 0 ≤ a.len ∧
    (bisect_right w a x).getD 0 ≤ a.len ∧
    (bisect_right_by_key w a b g).getD 0 ≤ a.len ∧
    (bisect_left_by w a f).getD 0 ≤ a.len ∧
    (bisect_left w a x).getD 0 ≤ a.len ∧
    (bisect_left_by_key w a b g).getD 0 ≤ a.len ∧
    (bisectRightTrace w a f).Forall (fun e => e.2.2 < a.len) ∧
    (bisectLeftTrace w a f).Forall (fun e => e.2.2 < a.len) := by
  refine ⟨bisect_right_by_le w a f, bisect_right_by_le w a _,
    bisect_right_by_le w a _, bisect_left_by_le w a f,
    bisect_left_by_le w a _, bisect_left_by_le w a _, ?_, ?_⟩
  · rw [List.forall_iff_forall_mem]
    intro e he
    rw [bisectRightTrace] at he
    by_cases h0 : a.len = 0
    · rw [if_pos h0] at he
      simp at he
    · rw [if_neg h0] at he
      have := bisectRightLoopT_mem w a f a.len 0 a.len (by omega) e he
      omega
  · rw [List.forall_iff_forall_mem]
    intro e he
    rw [bisectLeftTrace] at he
    by_cases h0 : a.len = 0
    · rw [if_pos h0] at he
      simp at he
    · rw [if_neg h0] at he
      have := bisectLeftLoopT_mem w a f a.len 0 a.len (by omega) e he
      omega

/-- The comparator k.cmp(x) on integers answers Greater exactly above
x. -/
theorem int_cmp_gt (a b : Int) : compare a b = Ordering.gt ↔ b < a :=
  compare_gt_iff_gt

/-- bisect_left_by on an in-range slice with a left-monotonic
comparator returns exactly the partition index. -/
theorem bisect_left_by_eq_partition {α : Type} (w : Nat) (a : Slice α)
    (f : α → Ordering) (p : Nat) (hw : 1 ≤ w) (hn : a.len ≤ 2 ^ (w - 1))
    (hp : p ≤ a.len)
    (h1 : ∀ j, j < p → f (a.get j) = Ordering.lt)
    (h2 : ∀ j, p ≤ j → j < a.len → f (a.get j) ≠ Ordering.lt) :
    bisect_left_by w a f = some p := by
  by_cases h0 : a.len = 0
  · rw [bisect_left_by, if_pos h0]
    congr 1
    omega
  · obtain ⟨i, hi⟩ := bisectLeftLoop_isSome w a f hw a.len 0 a.len
      (by omega) hn
    have hip := bisectLeftLoop_partition w a f p a.len h1 h2 a.len 0 a.len
      i (by omega) (by omega) hp le_rfl hi
    rw [bisect_left_by, if_neg h0, hi, hip]

/-- bisect_right_by on an in-range slice with a right-monotonic
comparator returns exactly the partition index. -/
theorem bisect_right_by_eq_partition {α : Type} (w : Nat) (a : Slice α)
    (f : α → Ordering) (p : Nat) (hw : 1 ≤ w) (hn : a.len ≤ 2 ^ (w - 1))
    (hp : p ≤ a.len)
    (h1 : ∀ j, j < p → f (a.get j) ≠ Ordering.gt)
    (h2 : ∀ j, p ≤ j → j < a.len → f (a.get j) = Ordering.gt) :
    bisect_right_by w a f = some p := by
  by_cases h0 : a.len = 0
  · rw [bisect_right_by, if_pos h0]
    congr 1
    omega
  · obtain ⟨i, hi⟩ := bisectRightLoop_isSome w a f hw a.len 0 a.len
      (by omega) hn
    have hip := bisectRightLoop_partition w a f p a.len h1 h2 a.len 0 a.len
      i (by omega) (by omega) hp le_rfl hi
    rw [bisect_right_by, if_neg h0, hi, hip]

/-- bisect_left_by only reads the slice length and the composition of
the comparator with the indexing. -/
theorem bisect_left_by_congr {α β : Type} (w : Nat) (a : Slice α)
    (b2 : Slice β) (f : α → Ordering) (g : β → Ordering)
    (hlen : a.len = b2.len)
    (hfg : ∀ i, f (a.get i) = g (b2.get i)) :
    bisect_left_by w a f = bisect_left_by w b2 g := by
  rw [bisect_left_by, bisect_left_by, hlen]
  by_cases h0 : b2.len = 0
  · rw [if_pos h0, if_pos h0]
  · rw [if_neg h0, if_neg h0]
    exact bisectLeftLoop_congr w a b2 f g hfg b2.len 0 b2.len (by omega)

/-- bisect_right_by only reads the slice length and the composition of
the comparator with the indexing. -/
theorem bisect_right_by_congr {α β : Type} (w : Nat) (a : Slice α)
    (b2 : Slice β) (f : α → Ordering) (g : β → Ordering)
    (hlen : a.len = b2.len)
    (hfg : ∀ i, f (a.get i) = g (b2.get i)) :
    bisect_right_by w a f = bisect_right_by w b2 g := by
  rw [bisect_right_by, bisect_right_by, hlen]
  by_cases h0 : b2.len = 0
  · rw [if_pos h0, if_pos h0]
  · rw [if_neg h0, if_neg h0]
    exact bisectRightLoop_congr w a b2 f g hfg b2.len 0 b2.len (by omega)

/-- Claim C6: key-extraction bisection coincides with direct bisection
of the pre-projected key sequence: for a slice holding the elements of
a list l sorted by the projected key, bisecting by key equals bisecting
the mapped list for the query key, in both directions. -/
theorem by_key_eq_premapped {α : Type} (w : Nat) (d : α) (l : List α)
    (f : α → Int) (b : Int) (hs : (l.map f).Sorted (· ≤ ·)) :
    bisect_left_by_key w (Slice.ofList d l) b f =
      bisect_left w (Slice.ofList (f d) (l.map f)) b ∧
    bisect_right_by_key w (Slice.ofList d l) b f =
      bisect_right w (Slice.ofList (f d) (l.map f)) b := by
  have hlen : (Slice.ofList d l).len = (Slice.ofList (f d) (l.map f)).len := by
    simp [Slice.ofList]
  have hfg : ∀ i,
      (fun k => compare (f k) b) ((Slice.ofList d l).get i) =
        (fun k => compare k b) ((Slice.ofList (f d) (l.map f)).get i) := by
    intro i
    simp only [Slice.ofList]
    rw [List.getD_map]
  constructor
  · rw [bisect_left_by_key, bisect_left]
    exact bisect_left_by_congr w _ _ _ _ hlen hfg
  · rw [bisect_right_by_key, bisect_right]
    exact bisect_right_by_congr w _ _ _ _ hlen hfg

/-- Concrete instantiation of claim C6 at width 8 on the list
[1, 5, 9] with projection v + 1 and query key 6. -/
theorem by_key_eq_premapped_witness :
    (([(1 : Int), 5, 9].map (fun v => v + 1)).Sorted (· ≤ ·)) ∧
    (bisect_left_by_key 8 (Slice.ofList (0 : Int) [1, 5, 9]) (6 : Int)
        (fun v => v + 1) =
      bisect_left 8
        (Slice.ofList ((fun v => v + 1) (0 : Int))
          ([(1 : Int), 5, 9].map (fun v => v + 1))) (6 : Int) ∧
    bisect_right_by_key 8 (Slice.ofList (0 : Int) [1, 5, 9]) (6 : Int)
        (fun v => v + 1) =
      bisect_right 8
        (Slice.ofList ((fun v => v + 1) (0 : Int))
          ([(1 : Int), 5, 9].map (fun v => v + 1))) (6 : Int)) :=
  ⟨by decide,
    by_key_eq_premapped 8 (0 : Int) [1, 5, 9] (fun v => v + 1) 6 (by decide)⟩

/-- Claim C7: for every sorted slice and every query, the left
insertion point is at most the right insertion point. Stated within
the overflow-free length range; both calls return a defined index
there. -/
theorem bisect_left_le_bisect_right (w : Nat) (S : List Int) (x : Int)
    (hw : 1 ≤ w) (hn : S.length ≤ 2 ^ (w - 1)) (hs : S.Sorted (· ≤ ·)) :
    ∃ i j, bisect_left w (Slice.ofList 0 S) x = some i ∧
      bisect_right w (Slice.ofList 0 S) x = some j ∧ i ≤ j := by
  obtain ⟨pl, hpl_le, hpl1, hpl2⟩ :=
    sorted_partition (fun v => v < x) (by intro u v huv hv; omega) S hs
  obtain ⟨pr, hpr_le, hpr1, hpr2⟩ :=
    sorted_partition (fun v => v ≤ x) (by intro u v huv hv; omega) S hs
  have hbl : bisect_left_by w (Slice.ofList 0 S) (fun k => compare k x) =
      some pl := by
    refine bisect_left_by_eq_partition w _ _ pl hw hn hpl_le ?_ ?_
    · intro j hj
      exact (int_cmp_lt _ _).2 (hpl1 j hj)
    · intro j hj hjl
      simp only [Slice.ofList] at hjl ⊢
      rw [int_cmp_ne_lt]
      have := hpl2 j hj hjl
      omega
  have hbr : bisect_right_by w (Slice.ofList 0 S) (fun k => compare k x) =
      some pr := by
    refine bisect_right_by_eq_partition w _ _ pr hw hn hpr_le ?_ ?_
    · intro j hj
      rw [int_cmp_ne_gt]
      exact hpr1 j hj
    · intro j hj hjl
      simp only [Slice.ofList] at hjl ⊢
      rw [int_cmp_gt]
      have := hpr2 j hj hjl
      omega
  have hple : pl ≤ pr := by
    by_contra hc
    push_neg at hc
    have h1 := hpl1 pr hc
    have h2 := hpr2 pr le_rfl (by omega)
    omega
  exact ⟨pl, pr, hbl, hbr, hple⟩

/-- Concrete instantiation of claim C7 at width 8 on the sorted list
[1, 2, 2, 3] with query 2. -/
theorem bisect_left_le_bisect_right_witness :
    (1 ≤ (8 : Nat)) ∧ ([(1 : Int), 2, 2, 3].length ≤ 2 ^ (8 - 1)) ∧
    ([(1 : Int), 2, 2, 3].Sorted (· ≤ ·)) ∧
    (∃ i j, bisect_left 8 (Slice.ofList 0 [(1 : Int), 2, 2, 3]) 2 = some i ∧
      bisect_right 8 (Slice.ofList 0 [(1 : Int), 2, 2, 3]) 2 = some j ∧
      i ≤ j) :=
  ⟨by decide, by decide, by decide,
    bisect_left_le_bisect_right 8 [1, 2, 2, 3] 2 (by decide) (by decide)
      (by decide)⟩

/-- Claim C8: for every sorted slice and every query value that does
not occur in it, the left and right insertion points coincide. Stated
within the overflow-free length range. -/
theorem bisect_left_eq_bisect_right_of_not_mem (w : Nat) (S : List Int)
    (x : Int) (hw : 1 ≤ w) (hn : S.length ≤ 2 ^ (w - 1))
    (hs : S.Sorted (· ≤ ·)) (hx : x ∉ S) :
    ∃ i, bisect_left w (Slice.ofList 0 S) x = some i ∧
      bisect_right w (Slice.ofList 0 S) x = some i := by
  obtain ⟨pl, hpl_le, hpl1, hpl2⟩ :=
    sorted_partition (fun v => v < x) (by intro u v huv hv; omega) S hs
  obtain ⟨pr, hpr_le, hpr1, hpr2⟩ :=
    sorted_partition (fun v => v ≤ x) (by intro u v huv hv; omega) S hs
  have hbl : bisect_left_by w (Slice.ofList 0 S) (fun k => compare k x) =
      some pl := by
    refine bisect_left_by_eq_partition w _ _ pl hw hn hpl_le ?_ ?_
    · intro j hj
      exact (int_cmp_lt _ _).2 (hpl1 j hj)
    · intro j hj hjl
      simp only [Slice.ofList] at hjl ⊢
      rw [int_cmp_ne_lt]
      have := hpl2 j hj hjl
      omega
  have hbr : bisect_right_by w (Slice.ofList 0 S) (fun k => compare k x) =
      some pr := by
    refine bisect_right_by_eq_partition w _ _ pr hw hn hpr_le ?_ ?_
    · intro j hj
      rw [int_cmp_ne_gt]
      exact hpr1 j hj
    · intro j hj hjl
      simp only [Slice.ofList] at hjl ⊢
      rw [int_cmp_gt]
      have := hpr2 j hj hjl
      omega
  have hple : pl ≤ pr := by
    by_contra hc
    push_neg at hc
    have h1 := hpl1 pr hc
    have h2 := hpr2 pr le_rfl (by omega)
    omega
  have hpge : pr ≤ pl := by
    by_contra hc
    push_neg at hc
    have h1 := hpr1 pl hc
    have h2 := hpl2 pl le_rfl (by omega)
    have heq : S.getD pl 0 = x := by omega
    have hmem : S.getD pl 0 ∈ S := by
      rw [List.getD_eq_getElem S 0 (by omega)]
      exact List.getElem_mem _
    rw [heq] at hmem
    exact hx hmem
  have hpp : pl = pr := by omega
  subst hpp
  exact ⟨pl, hbl, hbr⟩

/-- Concrete instantiation of claim C8 at width 8 on the sorted list
[1, 2, 4] with absent query 3. -/
theorem bisect_left_eq_bisect_right_of_not_mem_witness :
    (1 ≤ (8 : Nat)) ∧ ([(1 : Int), 2, 4].length ≤ 2 ^ (8 - 1)) ∧
    ([(1 : Int), 2, 4].Sorted (· ≤ ·)) ∧ ((3 : Int) ∉ [(1 : Int), 2, 4]) ∧
    (∃ i, bisect_left 8 (Slice.ofList 0 [(1 : Int), 2, 4]) 3 = some i ∧
      bisect_right 8 (Slice.ofList 0 [(1 : Int), 2, 4]) 3 = some i) :=
  ⟨by decide, by decide, by decide, by decide,
    bisect_left_eq_bisect_right_of_not_mem 8 [1, 2, 4] 3 (by decide)
      (by decide) (by decide) (by decide)⟩

/-- Claim C9: each bisection call probes every index at most once (the
probed indices of the iteration record hold no duplicate) and performs
at most ceiling of log2 of (n + 1) iterations, hence that many
comparator invocations, one per iteration; for an empty slice the
bound is zero, so the comparator is never invoked. The embedding is
pure, which is the no-other-side-effects half of the claim. -/
theorem comparator_probe_count {α : Type} (w : Nat) (a : Slice α)
    (f : α → Ordering) :
    (bisectRightTrace w a f).length ≤ Nat.clog 2 (a.len + 1) ∧
    ((bisectRightTrace w a f).map (fun e => e.2.2)).Nodup ∧
    (bisectLeftTrace w a f).length ≤ Nat.clog 2 (a.len + 1) ∧
    ((bisectLeftTrace w a f).map (fun e => e.2.2)).Nodup := by
  have hlt : a.len < 2 ^ Nat.clog 2 (a.len + 1) := by
    have := Nat.le_pow_clog (by norm_num : 1 < 2) (a.len + 1)
    omega
  refine ⟨?_, ?_, ?_, ?_⟩
  · rw [bisectRightTrace]
    by_cases h0 : a.len = 0
    · rw [if_pos h0]
      simp
    · rw [if_neg h0]
      exact bisectRightLoopT_len w a f (Nat.clog 2 (a.len + 1)) 0 a.len
        (by omega)
  · rw [bisectRightTrace]
    by_cases h0 : a.len = 0
    · rw [if_pos h0]
      simp
    · rw [if_neg h0]
      exact bisectRightLoopT_nodup w a f a.len 0 a.len (by omega)
  · rw [bisectLeftTrace]
    by_cases h0 : a.len = 0
    · rw [if_pos h0]
      simp
    · rw [if_neg h0]
      exact bisectLeftLoopT_len w a f (Nat.clog 2 (a.len + 1)) 0 a.len
        (by omega)
  · rw [bisectLeftTrace]
    by_cases h0 : a.len = 0
    · rw [if_pos h0]
      simp
    · rw [if_neg h0]
      exact bisectLeftLoopT_nodup w a f a.len 0 a.len (by omega)

/-- Claim C10: in every iteration of either loop, for every slice and
every comparator, the probed index mid satisfies
low <= mid < high <= len, so the unchecked element access at mid is
within bounds. In this embedding an overflowing iteration stops before
probing, so every probed mid is the floored half of an in-range sum. -/
theorem probed_mid_in_bounds {α : Type} (w : Nat) (a : Slice α)
    (f : α → Ordering) :
    (bisectRightTrace w a f).Forall
      (fun e => e.1 ≤ e.2.2 ∧ e.2.2 < e.2.1 ∧ e.2.1 ≤ a.len) ∧
    (bisectLeftTrace w a f).Forall
      (fun e => e.1 ≤ e.2.2 ∧ e.2.2 < e.2.1 ∧ e.2.1 ≤ a.len) := by
  constructor
  · rw [List.forall_iff_forall_mem]
    intro e he
    rw [bisectRightTrace] at he
    by_cases h0 : a.len = 0
    · rw [if_pos h0] at he
      simp at he
    · rw [if_neg h0] at he
      have := bisectRightLoopT_mem w a f a.len 0 a.len (by omega) e he
      exact ⟨this.2.1, this.2.2.1, this.2.2.2⟩
  · rw [List.forall_iff_forall_mem]
    intro e he
    rw [bisectLeftTrace] at he
    by_cases h0 : a.len = 0
    · rw [if_pos h0] at he
      simp at he
    · rw [if_neg h0] at he
      have := bisectLeftLoopT_mem w a f a.len 0 a.len (by omega) e he
      exact ⟨this.2.1, this.2.2.1, this.2.2.2⟩

end BisectRs
